import Mathlib

/-!
Verification of the proofmarshal perfect merkle tree and hoard offset model.

This file is a shallow embedding of the relevant parts of the repository:

* `src/hoard/src/pile/offset.rs` — the `Offset` / `OffsetMut` bit-packed
  pointer discriminator (machine integers are modelled as `Nat` with explicit
  `% 2 ^ 64` where u64 overflow could occur);
* `src/proofmarshal-core/src/collections/perfecttree/mod.rs` — the perfect
  merkle tree: construction (`new_leaf`, `try_join`), indexed `get`, lazy
  commitment digests (`pair_commit` / `to_commitment`), and the post-order
  save protocol (`SaveRefPoll` impls) together with `Load`.

Modules of the repository that the tree depends on but that are not present
in the source tree (`height.rs`, `length.rs`, `raw.rs`, `leaf.rs`, the
`commit` module and hoard's saver) are modelled from the spec; each such
definition carries a doc comment saying so.
-/

namespace Proofmarshal

/-! ## Offsets (src/hoard/src/pile/offset.rs)

A `usize`/`u64` is modelled as a `Nat`; values produced by the code are kept
below `2 ^ 64` by explicit reduction wherever the Rust arithmetic could wrap.
An `Offset`'s raw representation is the `NonZeroU64` payload.
-/

/-- Rust constant `Offset::MAX = (1 << 62) - 1`. -/
def offsetMax : Nat := (1 <<< 62) - 1

/-- Embedding of `Offset::new`: `if offset <= Self::MAX { Some((offset << 1) | 1) } else { None }`.
The shift is performed in `u64`, hence the explicit `% 2 ^ 64`; the result is
the raw `NonZeroU64` stored in the `Offset`. -/
def Offset.new (offset : Nat) : Option Nat :=
  if offset ≤ offsetMax then
    some (((offset <<< 1) % 2 ^ 64) ||| 1)
  else
    none

/-- Embedding of `Offset::get`: `(self.raw >> 1) as usize`. -/
def Offset.get (raw : Nat) : Nat :=
  raw >>> 1

/-- Result of `OffsetMut::kind`: either an `Offset` (carrying the untouched raw
representation, whose `get` is the offset) or a raw heap pointer address. -/
inductive OffKind where
  | offset (raw : Nat)
  | ptr (addr : Nat)
deriving DecidableEq, Repr

/-- Embedding of `OffsetMut::kind`: `match raw & 1 { 1 => Offset(self.0), 0 => Ptr(raw as *mut u16) }`. -/
def OffsetMut.kind (raw : Nat) : OffKind :=
  if raw &&& 1 = 1 then .offset raw else .ptr raw

/-- Embedding of `OffsetMut::from_ptr`: asserts `raw & 1 == 0`, then transmutes the address.
The failed assertion (a panic) is modelled as `none`. -/
def OffsetMut.fromPtr (addr : Nat) : Option Nat :=
  if addr &&& 1 = 0 then some addr else none

/-! ## Heights (modelled from the spec)

`Height` is an integer `0..=63`; `NonZeroHeight` is `1..=63`.  The modules
`height.rs`/`length.rs` are not in the source tree. -/

/-- Modelled from the spec: `Height::try_increment` on the missing `height.rs`;
heights are `0..=63`, so incrementing succeeds exactly when the result still
fits, returning the `NonZeroHeight` `h + 1`. -/
def Height.tryIncrement (h : Nat) : Option Nat :=
  if h + 1 ≤ 63 then some (h + 1) else none

/-! ## Digests

The digest type is kept abstract but executable: a digest is either the
digest of a small leaf value (the repository's `Digest::cast` of a `u8`
embeds the value bytes, as witnessed by the bytes in `tests::save`), or the
hash of a pair commitment.  Modelled from the spec: the hash is a
collision-free cryptographic hash, so `hashPair` is a free (injective)
constructor over its preimage — the two child digests and the height that the
commitment encoding contains. -/
inductive Digest where
  | ofValue (v : Nat)
  | hashPair (left right : Digest) (height : Nat)
deriving DecidableEq, Repr

/-! ## The in-memory tree

`PerfectTree` is a raw node (`digest`, pointer) plus height metadata; the
height decides whether the node is a `Leaf` (height 0) or a `Tip`
(height 1..=63), and a dereferenced `Tip` pointer is a `Pair` of two subtrees
of height one less.  The spec's invariant "a tree handle is trusted
metadata-consistent … the responsibility of the constructors" lets us fuse
node kind and pointer state into the constructors:

* `leafDirty v` — a `Leaf` whose value pointer is a live heap allocation;
* `leafClean d off` — a loaded `Leaf`: digest from the blob, value at `off`;
* `tipDirty d l r h` — a `Tip` of height `h` whose pair pointer is dirty,
  owning the pair `(l, r)`; `d` is the memoized digest cell;
* `tipClean d off h` — a `Tip` of height `h` whose pair pointer is a clean
  offset into the backing store. -/
inductive PTree where
  | leafDirty (value : Nat)
  | leafClean (digest : Option Digest) (off : Nat)
  | tipDirty (digest : Option Digest) (left right : PTree) (height : Nat)
  | tipClean (digest : Option Digest) (off : Nat) (height : Nat)
deriving DecidableEq, Repr

/-- Embedding of `PerfectTreeDyn::height`: the height metadata of the handle. -/
def PTree.height : PTree → Nat
  | .leafDirty _ => 0
  | .leafClean _ _ => 0
  | .tipDirty _ _ _ h => h
  | .tipClean _ _ h => h

/-- Result of `PerfectTree::try_join` / `Pair::try_join`: success, the
recoverable error carrying both operands back, or a panic. -/
inductive JoinResult where
  | ok (t : PTree)
  | err (left right : PTree)
  | panic
deriving DecidableEq, Repr

/-- Embedding of `PerfectTree::try_join`, via `Tip::try_join` and `Pair::try_join`:

```rust
if left.height() != right.height() {
    panic!("height mismatch")
} else if let Some(height) = left.height().try_increment() {
    Ok(...)  // Pair { left, right } at `height`, wrapped by Tip::new
} else {
    Err((left, right))
}
```

`Tip::new` allocates the pair on the heap (`P::alloc`) with digest cell
`None`, so the successful result is a dirty tip of height `h + 1`. -/
def tryJoin (left right : PTree) : JoinResult :=
  if left.height ≠ right.height then
    .panic
  else
    match Height.tryIncrement left.height with
    | some h => .ok (.tipDirty none left right h)
    | none => .err left right

/-- Embedding of `PerfectTree::new_leaf`: a fresh dirty leaf. -/
def newLeaf (v : Nat) : PTree :=
  .leafDirty v

/-! ## Commitments and digests

`TipDyn::pair_commit` returns the memoized digest if present and otherwise
computes it from the dirty pair via `HashCommit::new(pair)`, which hashes the
pair's commitment.  `PairDyn::to_commitment` is:

```rust
let left = self.left().to_commitment();
let right = self.left().to_commitment();   // sic: left() twice
Pair::try_join(left, right).ok().unwrap()
```

so the hashed pair commitment contains the left child's digest twice.  A
commitment of a leaf is the digest of its value; a commitment of a tip is its
`pair_commit` digest.  A clean node whose digest cell is empty panics
("digest missing yet tip ptr clean"); panics are modelled as `none`. -/
def nodeDigest : PTree → Option Digest
  | .leafDirty v => some (.ofValue v)
  | .leafClean d _ => d
  | .tipDirty (some g) _ _ _ => some g
  | .tipDirty none l _ h => (nodeDigest l).map fun dl => .hashPair dl dl h
  | .tipClean d _ _ => d

/-- Embedding of `TipDyn::pair_commit` on a tree handle known to be a tip (for other
handles the question does not arise); `none` models the panic in
`calc_pair_commit`. -/
def pairCommit : PTree → Option Digest
  | .tipDirty (some g) _ _ _ => some g
  | .tipDirty none l _ h => (nodeDigest l).map fun dl => .hashPair dl dl h
  | .tipClean d _ _ => d
  | _ => none

/-! ## The backing store

Modelled from the spec (the saver in hoard's `ptr::key::offset` is not in the
source tree): the store is an append-only byte sequence; `append` writes at
the current end and returns the starting byte offset.  We model the bytes as
a list of fixed-width fields, exactly the wire format of spec §6 as confirmed
by the bytes of `tests::save`:

* `payload v` — the 1-byte encoding of a `u8` leaf value;
* `digest d` — a 32-byte digest block (opaque: only its width matters here);
* `offset o` — an 8-byte little-endian child offset;
* `heightByte h` — the 1-byte height. -/
inductive Seg where
  | payload (v : Nat)
  | digest (d : Digest)
  | offset (o : Nat)
  | heightByte (h : Nat)
deriving DecidableEq, Repr

/-- Byte width of a field, per the wire format of spec §6. -/
def Seg.size : Seg → Nat
  | .payload _ => 1
  | .digest _ => 32
  | .offset _ => 8
  | .heightByte _ => 1

/-- Byte length of a store region. -/
def byteLen (s : List Seg) : Nat :=
  (s.map Seg.size).sum

/-- The fields of the store starting at byte offset `off`; `none` when `off`
does not fall on a field boundary or lies past the end. -/
def segsAt : List Seg → Nat → Option (List Seg)
  | rest, 0 => some rest
  | [], _ + 1 => none
  | seg :: rest, off + 1 =>
      if off + 1 < seg.size then none else segsAt rest (off + 1 - seg.size)

/-- Reading a persisted leaf value: the 1-byte payload record at `off`. -/
def readPayload (s : List Seg) (off : Nat) : Option Nat :=
  match segsAt s off with
  | some (.payload v :: _) => some v
  | _ => none

/-- Reconstructing a clean child handle from its stored node blob
(`digest_bytes ++ pointer`) at the height imposed by the parent
(`self.height().decrement()`): height `0` selects the leaf interpretation,
anything else a tip — exactly `PerfectTreeDyn::kind` on the loaded node. -/
def mkClean (h : Nat) (d : Digest) (off : Nat) : PTree :=
  if h = 0 then .leafClean (some d) off else .tipClean (some d) off h

/-- Reading a persisted `PairDyn` blob at `off`: two consecutive node blobs,
each `digest_bytes ++ pointer` (`raw::Pair { left, right }`); the children
are rebuilt at height `h - 1` where `h` is the pair's height. -/
def readPair (s : List Seg) (off : Nat) (h : Nat) : Option (PTree × PTree) :=
  match segsAt s off with
  | some (.digest dl :: .offset ol :: .digest dr :: .offset orr :: _) =>
      some (mkClean (h - 1) dl ol, mkClean (h - 1) dr orr)
  | _ => none

/-! ## Indexed get

`PerfectTreeDyn::get` / `get_leaf` / `PairDyn::get_leaf`.  The Rust recursion
mixes structural descent (dirty pairs) with store reads (clean pairs), so the
Lean embedding uses explicit fuel; every descent step reduces the height by
one, so fuel `height + 1` always suffices (see `PTree.get`). -/
def getLeafF (s : List Seg) : Nat → PTree → Nat → Option Nat
  | 0, _, _ => none
  | _ + 1, .leafDirty v, idx =>
      if idx = 0 then some v else none
  | _ + 1, .leafClean _ off, idx =>
      if idx = 0 then readPayload s off else none
  | fuel + 1, .tipDirty _ l r h, idx =>
      let len := 2 ^ h
      if idx < len / 2 then getLeafF s fuel l idx
      else if idx < len then getLeafF s fuel r (idx - len / 2)
      else none
  | fuel + 1, .tipClean _ off h, idx =>
      match readPair s off h with
      | some (l, r) =>
          let len := 2 ^ h
          if idx < len / 2 then getLeafF s fuel l idx
          else if idx < len then getLeafF s fuel r (idx - len / 2)
          else none
      | none => none

/-- Embedding of `PerfectTreeDyn::get(idx)`: the leaf value at index `idx`, resolving
clean pointers through the store `s`. -/
def PTree.get (s : List Seg) (t : PTree) (idx : Nat) : Option Nat :=
  getLeafF s (t.height + 1) t idx

/-! ## The save protocol

`TipDynSavePoll::save_ref_poll` / `PairDynSavePoll::save_ref_poll` /
`LeafSavePoll` (the latter modelled from the spec §4.4 plus the bytes of
`tests::save`, `leaf.rs` being absent): saving a node yields the node blob
contents `(digest, offset)` that the parent will embed.

* a clean pointer short-circuits: its existing offset is emitted with no
  store append (`State::Clean → saver.save_ptr → State::Done`);
* a dirty leaf appends the value's payload and uses its offset;
* a dirty tip first saves both children (left then right), then appends the
  pair blob `left_digest ++ left_ptr ++ right_digest ++ right_ptr`;
* the digest written for a tip is `pair_commit` (computed in
  `init_save_ref`), for a leaf the value's digest; a clean node whose digest
  cell is empty panics, modelled as `none`. -/
def saveNode : PTree → List Seg → Option (List Seg × Digest × Nat)
  | .leafDirty v, s =>
      some (s ++ [.payload v], .ofValue v, byteLen s)
  | .leafClean (some d) off, s => some (s, d, off)
  | .leafClean none _, _ => none
  | .tipDirty memo l r h, s =>
      match pairCommit (.tipDirty memo l r h) with
      | none => none
      | some g =>
          match saveNode l s with
          | none => none
          | some (s1, dl, ol) =>
              match saveNode r s1 with
              | none => none
              | some (s2, dr, orr) =>
                  some (s2 ++ [.digest dl, .offset ol, .digest dr, .offset orr],
                        g, byteLen s2)
  | .tipClean (some d) off _, s => some (s, d, off)
  | .tipClean none _ _, _ => none

/-- Embedding of `OffsetSaver::try_save` (modelled from the spec §4.4 and `tests::save`):
polls the tree's `SaveRefPoll` to completion, then appends the root blob
`node_blob ++ height_byte` (the `Save` impl for `PerfectTree`) and returns
its offset together with the final store contents. -/
def trySave (t : PTree) (s : List Seg) : Option (Nat × List Seg) :=
  match saveNode t s with
  | none => none
  | some (s1, d, off) =>
      some (byteLen s1, s1 ++ [.digest d, .offset off, .heightByte t.height])

/-- Embedding of `Load for PerfectTree` at a root offset: decode
`digest_bytes ++ pointer ++ height_byte` and rebuild the handle; the loaded
tree's pointer starts clean, referencing the stored offset. -/
def loadRoot (s : List Seg) (off : Nat) : Option PTree :=
  match segsAt s off with
  | some (.digest d :: .offset o :: .heightByte h :: _) => some (mkClean h d o)
  | _ => none

/-! ## Trees built by the public constructors -/

/-- The trees obtainable from a list of leaf values through `new_leaf` and
successful `try_join`s, pairwise: `builtFrom t vs` says `t` was built with
leaf sequence `vs` (left to right). -/
inductive builtFrom : PTree → List Nat → Prop where
  | leaf (v : Nat) : builtFrom (newLeaf v) [v]
  | join {l r : PTree} {t : PTree} {vl vr : List Nat} :
      builtFrom l vl → builtFrom r vr → tryJoin l r = .ok t →
      builtFrom t (vl ++ vr)

/-- Every clean node of the in-memory graph has its digest cell filled; the
dirty structure is traversed, clean pointers are the frontier. -/
def goodTree : PTree → Bool
  | .leafDirty _ => true
  | .leafClean d _ => d.isSome
  | .tipDirty _ l r _ => goodTree l && goodTree r
  | .tipClean d _ _ => d.isSome

/-- Every 8-byte offset field in a store region starting at byte position
`pos` references a strictly earlier byte position (i.e. bytes that already
existed when the field was appended). -/
def offsetsPointBack : List Seg → Nat → Bool
  | [], _ => true
  | .offset o :: rest, pos => decide (o < pos) && offsetsPointBack rest (pos + 8)
  | seg :: rest, pos => offsetsPointBack rest (pos + seg.size)

/-- The two-leaf tree of `tests::save` and `tests::test_get`:
`try_join(new_leaf(0u8), new_leaf(1u8))`. -/
def demoTree : PTree :=
  .tipDirty none (.leafDirty 0) (.leafDirty 1) 1

/-- The digest the code computes for `demoTree`'s pair: because
`PairDyn::to_commitment` reads `self.left()` twice, both digest slots of the
hashed commitment hold leaf `0`'s digest. -/
def demoDigest : Digest :=
  .hashPair (.ofValue 0) (.ofValue 0) 1

/-- The store produced by saving `demoTree` into an empty store, field by
field: the two leaf payloads, the pair blob (leaf digest + leaf offset,
twice), and the root record (pair digest + pair offset + height byte). -/
def demoStore : List Seg :=
  [.payload 0, .payload 1,
   .digest (.ofValue 0), .offset 0, .digest (.ofValue 1), .offset 1,
   .digest demoDigest, .offset 2, .heightByte 1]

end Proofmarshal

namespace Proofmarshal

/-! ## Claims C7, C8, C1, C2 -/

/-- Helper: `x ||| 1 = x + 1` for even `x`. -/
theorem lor_one_of_even (x : Nat) (hx : x % 2 = 0) : x ||| 1 = x + 1 := by
  apply Nat.eq_of_testBit_eq
  intro i
  rw [Nat.testBit_or]
  cases i with
  | zero =>
      have h1 : (x + 1) % 2 = 1 := by omega
      simp [Nat.testBit_zero, hx, h1]
  | succ j =>
      have hdiv : (x + 1) / 2 ^ (j + 1) = x / 2 ^ (j + 1) := by
        have h2 : (x + 1) / 2 = x / 2 := by omega
        rw [pow_succ, Nat.mul_comm, ← Nat.div_div_eq_div_mul,
          ← Nat.div_div_eq_div_mul, h2]
      have hone : Nat.testBit 1 (j + 1) = false := by
        have h1 : (1 : Nat) / 2 ^ (j + 1) = 0 :=
          Nat.div_eq_of_lt (Nat.one_lt_two_pow (by omega))
        simp [Nat.testBit_to_div_mod, h1]
      rw [hone, Bool.or_false, Nat.testBit_to_div_mod, Nat.testBit_to_div_mod, hdiv]

/-- C7: for every `usize` value `o`, `Offset::new(o)` returns `Some` exactly
when `o ≤ 2 ^ 62 - 1` (and `None` otherwise, never panicking); on success the
stored raw representation is `(o <<< 1) ||| 1` and `get` recovers `o`. -/
theorem offset_new_spec (o : Nat) (ho : o < 2 ^ 64) :
    ((Offset.new o).isSome ↔ o ≤ 2 ^ 62 - 1) ∧
    (∀ raw, Offset.new o = some raw →
      raw = (o <<< 1) ||| 1 ∧ Offset.get raw = o) := by
  have hm : offsetMax = 2 ^ 62 - 1 := by
    unfold offsetMax
    rw [Nat.shiftLeft_eq]
    norm_num
  by_cases h : o ≤ 2 ^ 62 - 1
  · have hnew : Offset.new o = some (((o <<< 1) % 2 ^ 64) ||| 1) := by
      unfold Offset.new
      rw [hm, if_pos h]
    have hsh : o <<< 1 = 2 * o := by
      rw [Nat.shiftLeft_eq]; ring
    have hlt : o <<< 1 < 2 ^ 64 := by
      rw [hsh]; norm_num at h ⊢; omega
    have hmod : (o <<< 1) % 2 ^ 64 = o <<< 1 := Nat.mod_eq_of_lt hlt
    rw [hmod] at hnew
    refine ⟨by simp [hnew]; omega, ?_⟩
    intro raw hraw
    rw [hnew] at hraw
    injection hraw with hraw
    refine ⟨hraw.symm, ?_⟩
    have heven : (o <<< 1) % 2 = 0 := by rw [hsh]; omega
    rw [← hraw, lor_one_of_even _ heven, hsh]
    show (2 * o + 1) >>> 1 = o
    rw [Nat.shiftRight_eq_div_pow, pow_one]
    omega
  · have hnew : Offset.new o = none := by
      unfold Offset.new
      rw [hm, if_neg h]
    refine ⟨by simp [hnew]; omega, ?_⟩
    intro raw hraw
    rw [hnew] at hraw
    cases hraw

/-- C7 witness: `Offset::new` at the concrete boundary values. -/
theorem offset_new_spec_witness :
    (((Offset.new 5).isSome ↔ (5 : Nat) ≤ 2 ^ 62 - 1) ∧
      (∀ raw, Offset.new 5 = some raw →
        raw = ((5 : Nat) <<< 1) ||| 1 ∧ Offset.get raw = 5)) ∧
    ((Offset.new (2 ^ 62)).isSome ↔ (2 ^ 62 : Nat) ≤ 2 ^ 62 - 1) := by
  refine ⟨offset_new_spec 5 (by norm_num), ?_⟩
  exact (offset_new_spec (2 ^ 62) (by norm_num)).1

/-- C8: `OffsetMut::kind` classifies a raw representation as `Offset` exactly
when its low bit is `1` (the carried offset value being the representation
shifted right by one) and as `Ptr` of the untouched address exactly when the
low bit is `0`; and `OffsetMut::from_ptr` rejects (by assertion) any address
whose low bit is set. -/
theorem offsetmut_kind_spec (raw : Nat) :
    (OffsetMut.kind raw = .offset raw ↔ raw &&& 1 = 1) ∧
    (OffsetMut.kind raw = .ptr raw ↔ raw &&& 1 = 0) ∧
    Offset.get raw = raw >>> 1 ∧
    ((OffsetMut.fromPtr raw).isSome ↔ raw &&& 1 = 0) := by
  have h1 : raw &&& 1 = raw % 2 := Nat.and_one_is_mod raw
  have h2 : raw % 2 = 0 ∨ raw % 2 = 1 := Nat.mod_two_eq_zero_or_one raw
  unfold OffsetMut.kind OffsetMut.fromPtr Offset.get
  rcases h2 with h | h <;> simp [h1, h]

/-- C1 (the code as it stands): `Pair::try_join` with operands of unequal
heights hits `panic!("height mismatch")` instead of returning the recoverable
`Err((left, right))`; evaluated at a height-0 leaf against the height-1 tree
obtained by joining two leaves. -/
theorem try_join_mismatch_panics :
    tryJoin (newLeaf 1) (newLeaf 2) = .ok (.tipDirty none (.leafDirty 1) (.leafDirty 2) 1) ∧
    tryJoin (newLeaf 0) (.tipDirty none (.leafDirty 1) (.leafDirty 2) 1) = .panic := by
  constructor <;> rfl

/-- C2 (the code as it stands): `PairDyn::to_commitment` computes the right
child's commitment from `self.left()` (copy-paste slip), so the root digest
ignores the right subtree: joining leaf `0` with leaf `1` and joining leaf
`0` with leaf `2` produce the same digest even though a leaf value differs. -/
theorem digest_ignores_right_child :
    tryJoin (newLeaf 0) (newLeaf 1) = .ok (.tipDirty none (.leafDirty 0) (.leafDirty 1) 1) ∧
    tryJoin (newLeaf 0) (newLeaf 2) = .ok (.tipDirty none (.leafDirty 0) (.leafDirty 2) 1) ∧
    nodeDigest (.tipDirty none (.leafDirty 0) (.leafDirty 1) 1) =
      nodeDigest (.tipDirty none (.leafDirty 0) (.leafDirty 2) 1) ∧
    (1 : Nat) ≠ 2 := by
  refine ⟨rfl, rfl, rfl, by decide⟩

end Proofmarshal

namespace Proofmarshal

/-! ## Store lemmas -/

theorem Seg.size_pos (seg : Seg) : 0 < seg.size := by
  cases seg <;> simp [Seg.size]

theorem byteLen_append (xs ys : List Seg) :
    byteLen (xs ++ ys) = byteLen xs + byteLen ys := by
  simp [byteLen]

theorem byteLen_cons (x : Seg) (xs : List Seg) :
    byteLen (x :: xs) = x.size + byteLen xs := by
  simp [byteLen]

theorem segsAt_zero (s : List Seg) : segsAt s 0 = some s := by
  cases s <;> rfl

theorem segsAt_cons_of_pos (x : Seg) (rest : List Seg) {off : Nat} (h : 0 < off) :
    segsAt (x :: rest) off =
      if off < x.size then none else segsAt rest (off - x.size) := by
  cases off with
  | zero => omega
  | succ o => rfl

theorem segsAt_append_some {xs : List Seg} {off : Nat} {r : List Seg} (ys : List Seg)
    (h : segsAt xs off = some r) : segsAt (xs ++ ys) off = some (r ++ ys) := by
  induction xs generalizing off with
  | nil =>
      cases off with
      | zero =>
          rw [segsAt_zero] at h
          injection h with h
          subst h
          rw [segsAt_zero]
      | succ o =>
          simp only [segsAt] at h
          exact Option.noConfusion h
  | cons x rest ih =>
      cases off with
      | zero =>
          rw [segsAt_zero] at h
          injection h with h
          subst h
          rw [segsAt_zero]
      | succ o =>
          simp only [segsAt] at h
          rw [List.cons_append]
          simp only [segsAt]
          split at h
          · exact Option.noConfusion h
          · rename_i hlt
            rw [if_neg hlt]
            exact ih h

theorem segsAt_skip (xs ys : List Seg) (off : Nat) :
    segsAt (xs ++ ys) (byteLen xs + off) = segsAt ys off := by
  induction xs with
  | nil => simp [byteLen]
  | cons x rest ih =>
      have hsz := Seg.size_pos x
      rw [List.cons_append, byteLen_cons,
        segsAt_cons_of_pos x (rest ++ ys) (by omega), if_neg (by omega)]
      have h1 : x.size + byteLen rest + off - x.size = byteLen rest + off := by omega
      rw [h1]
      exact ih

theorem segsAt_append_len (xs ys : List Seg) :
    segsAt (xs ++ ys) (byteLen xs) = some ys := by
  have h := segsAt_skip xs ys 0
  rw [Nat.add_zero, segsAt_zero] at h
  exact h

theorem offsetsPointBack_append (xs ys : List Seg) (pos : Nat) :
    offsetsPointBack (xs ++ ys) pos =
      (offsetsPointBack xs pos && offsetsPointBack ys (pos + byteLen xs)) := by
  induction xs generalizing pos with
  | nil => simp [offsetsPointBack, byteLen]
  | cons x rest ih =>
      cases x <;>
        simp [offsetsPointBack, byteLen_cons, Seg.size, ih, Nat.add_assoc,
          Bool.and_assoc]

/-! ## Construction lemmas -/

theorem tryJoin_ok_inv {l r t : PTree} (h : tryJoin l r = .ok t) :
    l.height = r.height ∧ l.height + 1 ≤ 63 ∧
      t = .tipDirty none l r (l.height + 1) := by
  unfold tryJoin Height.tryIncrement at h
  by_cases hne : l.height ≠ r.height
  · rw [if_pos hne] at h
    exact JoinResult.noConfusion h
  · rw [if_neg hne] at h
    by_cases hle : l.height + 1 ≤ 63
    · rw [if_pos hle] at h
      simp only at h
      injection h with h
      exact ⟨not_not.mp hne, hle, h.symm⟩
    · rw [if_neg hle] at h
      simp only at h
      exact JoinResult.noConfusion h

theorem builtFrom_length {t : PTree} {vs : List Nat} (hb : builtFrom t vs) :
    vs.length = 2 ^ t.height ∧ t.height ≤ 63 := by
  induction hb with
  | leaf v => simp [newLeaf, PTree.height]
  | @join l r tj vl vr hl hr hj ihl ihr =>
      obtain ⟨hhe, hh63, ht⟩ := tryJoin_ok_inv hj
      subst ht
      obtain ⟨el, _⟩ := ihl
      obtain ⟨er, _⟩ := ihr
      rw [← hhe] at er
      have hht : PTree.height (.tipDirty none l r (l.height + 1)) = l.height + 1 := rfl
      rw [hht]
      have hpow : (2 : Nat) ^ (l.height + 1) = 2 ^ l.height + 2 ^ l.height := by
        rw [pow_succ]; ring
      constructor
      · rw [List.length_append, hpow, el, er]
      · exact hh63

theorem getLeafF_builtFrom {t : PTree} {vs : List Nat} (hb : builtFrom t vs) :
    ∀ fuel, t.height < fuel → ∀ s idx, getLeafF s fuel t idx = vs[idx]? := by
  induction hb with
  | leaf v =>
      intro fuel hf s idx
      cases fuel with
      | zero => simp [newLeaf, PTree.height] at hf
      | succ f =>
          by_cases h0 : idx = 0
          · subst h0; rfl
          · rw [show getLeafF s (f + 1) (newLeaf v) idx = none from by
              simp [newLeaf, getLeafF, h0]]
            refine (List.getElem?_eq_none ?_).symm
            simp only [List.length_singleton]
            omega
  | @join l r tj vl vr hl hr hj ihl ihr =>
      obtain ⟨hhe, hh63, ht⟩ := tryJoin_ok_inv hj
      obtain ⟨hll, _⟩ := builtFrom_length hl
      obtain ⟨hrl, _⟩ := builtFrom_length hr
      subst ht
      intro fuel hf s idx
      have hht : PTree.height (.tipDirty none l r (l.height + 1)) = l.height + 1 := rfl
      rw [hht] at hf
      cases fuel with
      | zero => omega
      | succ f =>
          rw [show getLeafF s (f + 1) (.tipDirty none l r (l.height + 1)) idx =
              (if idx < 2 ^ (l.height + 1) / 2 then getLeafF s f l idx
               else if idx < 2 ^ (l.height + 1) then
                 getLeafF s f r (idx - 2 ^ (l.height + 1) / 2)
               else none) from rfl]
          have hdiv : 2 ^ (l.height + 1) / 2 = 2 ^ l.height := by
            rw [pow_succ]; omega
          rw [hdiv]
          by_cases h1 : idx < 2 ^ l.height
          · rw [if_pos h1, ihl f (by omega) s idx, List.getElem?_append,
              if_pos (show idx < vl.length by rw [hll]; exact h1)]
          · rw [if_neg h1]
            by_cases h2 : idx < 2 ^ (l.height + 1)
            · rw [if_pos h2, ihr f (by omega) s (idx - 2 ^ l.height),
                List.getElem?_append_right (by rw [hll]; omega), hll, hhe]
            · rw [if_neg h2]
              refine (List.getElem?_eq_none ?_).symm
              rw [List.length_append, hll, hrl, ← hhe]
              have hp : (2 : Nat) ^ (l.height + 1) = 2 ^ l.height + 2 ^ l.height := by
                rw [pow_succ]; ring
              omega

end Proofmarshal

namespace Proofmarshal

/-- One-step unfolding of `getLeafF` at a clean tip. -/
theorem getLeafF_tipClean (store : List Seg) (f : Nat) (d : Option Digest)
    (off h idx : Nat) :
    getLeafF store (f + 1) (.tipClean d off h) idx =
      match readPair store off h with
      | some (lc, rc) =>
          if idx < 2 ^ h / 2 then getLeafF store f lc idx
          else if idx < 2 ^ h then getLeafF store f rc (idx - 2 ^ h / 2)
          else none
      | none => none := rfl

/-- Unfolding of `getLeafF` at a clean tip whose stored pair reads back successfully. -/
theorem getLeafF_tipClean_some {store : List Seg} {f : Nat} {d : Option Digest}
    {off h idx : Nat} {lc rc : PTree}
    (hrp : readPair store off h = some (lc, rc)) :
    getLeafF store (f + 1) (.tipClean d off h) idx =
      (if idx < 2 ^ h / 2 then getLeafF store f lc idx
       else if idx < 2 ^ h then getLeafF store f rc (idx - 2 ^ h / 2)
       else none) := by
  simp only [getLeafF_tipClean, hrp]

/-- Master lemma for the save protocol on freshly built (fully dirty) trees:
saving appends a region `Δ`, returns the computed digest and an offset inside
`Δ`, every offset field inside `Δ` points strictly backwards, and the clean
handle rebuilt from the returned node blob reads back exactly the original
leaf sequence in any extension of the resulting store. -/
theorem saveNode_spec {t : PTree} {vs : List Nat} (hb : builtFrom t vs) :
    ∀ s : List Seg, ∃ Δ d off,
      saveNode t s = some (s ++ Δ, d, off) ∧
      nodeDigest t = some d ∧
      byteLen s ≤ off ∧ off < byteLen (s ++ Δ) ∧
      offsetsPointBack Δ (byteLen s) = true ∧
      ∀ ext idx,
        getLeafF ((s ++ Δ) ++ ext) (t.height + 1) (mkClean t.height d off) idx
          = vs[idx]? := by
  induction hb with
  | leaf v =>
      intro s
      refine ⟨[.payload v], .ofValue v, byteLen s, rfl, rfl, le_refl _, ?_, rfl, ?_⟩
      · rw [byteLen_append]
        have h1 : byteLen [Seg.payload v] = 1 := rfl
        omega
      · intro ext idx
        by_cases h0 : idx = 0
        · subst h0
          have hread : readPayload ((s ++ [Seg.payload v]) ++ ext) (byteLen s)
              = some v := by
            unfold readPayload
            rw [List.append_assoc, segsAt_append_len]
            rfl
          show (if (0 : Nat) = 0 then
              readPayload ((s ++ [Seg.payload v]) ++ ext) (byteLen s)
            else none) = some v
          rw [if_pos rfl, hread]
        · show (if idx = 0 then
              readPayload ((s ++ [Seg.payload v]) ++ ext) (byteLen s)
            else none) = [v][idx]?
          rw [if_neg h0]
          refine (List.getElem?_eq_none ?_).symm
          simp only [List.length_singleton]
          omega
  | @join l r tj vl vr hl hr hj ihl ihr =>
      obtain ⟨hhe, hh63, ht⟩ := tryJoin_ok_inv hj
      obtain ⟨hll, _⟩ := builtFrom_length hl
      obtain ⟨hrl, _⟩ := builtFrom_length hr
      subst ht
      intro s
      obtain ⟨Δl, dl, ol, hsl, hdl, holge, holt, hpbl, hgl⟩ := ihl s
      obtain ⟨Δr, dr, orr, hsr, hdr, horge, hort, hpbr, hgr⟩ := ihr (s ++ Δl)
      have hpc : pairCommit (.tipDirty none l r (l.height + 1)) =
          some (.hashPair dl dl (l.height + 1)) := by
        rw [show pairCommit (.tipDirty none l r (l.height + 1)) =
            (nodeDigest l).map (fun x => .hashPair x x (l.height + 1)) from rfl, hdl]
        rfl
      have hnd : nodeDigest (.tipDirty none l r (l.height + 1)) =
          some (.hashPair dl dl (l.height + 1)) := by
        rw [show nodeDigest (.tipDirty none l r (l.height + 1)) =
            (nodeDigest l).map (fun x => .hashPair x x (l.height + 1)) from rfl, hdl]
        rfl
      have hrecLen :
          byteLen [Seg.digest dl, Seg.offset ol, Seg.digest dr, Seg.offset orr] = 80 := rfl
      have hpbr2 : offsetsPointBack Δr (byteLen s + byteLen Δl) = true := by
        rw [← byteLen_append]
        exact hpbr
      have hrecPB : ∀ p, byteLen ((s ++ Δl) ++ Δr) ≤ p →
          offsetsPointBack
            [Seg.digest dl, Seg.offset ol, Seg.digest dr, Seg.offset orr] p = true := by
        intro p hp
        simp only [offsetsPointBack, Seg.size, Bool.and_true, Bool.and_eq_true,
          decide_eq_true_eq]
        have hol := holt
        have horr := hort
        simp only [byteLen_append] at hol horr hp
        omega
      rw [← hhe] at hrl hgr
      refine ⟨Δl ++ Δr ++ [Seg.digest dl, Seg.offset ol, Seg.digest dr, Seg.offset orr],
        .hashPair dl dl (l.height + 1), byteLen ((s ++ Δl) ++ Δr),
        ?_, hnd, ?_, ?_, ?_, ?_⟩
      · simp only [saveNode, hpc, hsl, hsr]
        simp [List.append_assoc]
      · simp only [byteLen_append]
        omega
      · simp only [byteLen_append, hrecLen]
        omega
      · rw [offsetsPointBack_append, offsetsPointBack_append, hpbl, hpbr2]
        rw [hrecPB _ (by simp only [byteLen_append] at *; omega)]
        rfl
      · intro ext idx
        have hmk : mkClean (PTree.height (.tipDirty none l r (l.height + 1)))
            (.hashPair dl dl (l.height + 1)) (byteLen ((s ++ Δl) ++ Δr)) =
            .tipClean (some (.hashPair dl dl (l.height + 1)))
              (byteLen ((s ++ Δl) ++ Δr)) (l.height + 1) := by
          unfold mkClean
          rw [if_neg (by simp [PTree.height])]
          rfl
        have hstore : (s ++ (Δl ++ Δr ++
              [Seg.digest dl, Seg.offset ol, Seg.digest dr, Seg.offset orr])) ++ ext
            = ((s ++ Δl) ++ Δr) ++
              ([Seg.digest dl, Seg.offset ol, Seg.digest dr, Seg.offset orr] ++ ext) := by
          simp [List.append_assoc]
        have hrp : readPair (((s ++ Δl) ++ Δr) ++
              ([Seg.digest dl, Seg.offset ol, Seg.digest dr, Seg.offset orr] ++ ext))
              (byteLen ((s ++ Δl) ++ Δr)) (l.height + 1)
            = some (mkClean l.height dl ol, mkClean l.height dr orr) := by
          unfold readPair
          rw [segsAt_append_len]
          rfl
        rw [hmk]
        show getLeafF _ ((l.height + 1) + 1) _ idx = _
        rw [hstore, getLeafF_tipClean_some hrp]
        have hdiv : 2 ^ (l.height + 1) / 2 = 2 ^ l.height := by
          rw [pow_succ]; omega
        rw [hdiv]
        by_cases h1 : idx < 2 ^ l.height
        · rw [if_pos h1]
          have hassoc : ((s ++ Δl) ++ Δr) ++
                ([Seg.digest dl, Seg.offset ol, Seg.digest dr, Seg.offset orr] ++ ext)
              = (s ++ Δl) ++ (Δr ++
                ([Seg.digest dl, Seg.offset ol, Seg.digest dr, Seg.offset orr] ++ ext)) := by
            simp [List.append_assoc]
          rw [hassoc, hgl, List.getElem?_append,
            if_pos (show idx < vl.length by rw [hll]; exact h1)]
        · rw [if_neg h1]
          by_cases h2 : idx < 2 ^ (l.height + 1)
          · rw [if_pos h2, hgr, List.getElem?_append_right (by rw [hll]; omega), hll]
          · rw [if_neg h2]
            refine (List.getElem?_eq_none ?_).symm
            rw [List.length_append, hll, hrl]
            have hp : (2 : Nat) ^ (l.height + 1) = 2 ^ l.height + 2 ^ l.height := by
              rw [pow_succ]; ring
            omega

end Proofmarshal

namespace Proofmarshal

theorem demoTree_built : builtFrom demoTree [0, 1] := by
  have h : tryJoin (newLeaf 0) (newLeaf 1) = .ok demoTree := by rfl
  exact builtFrom.join (builtFrom.leaf 0) (builtFrom.leaf 1) h

/-- C3: for a tree built from the leaf sequence `[v0, …, v(2^h − 1)]` via
`new_leaf` and `try_join`, the sequence has length `2 ^ h`, and `get i`
returns `some vi` for every `i < 2 ^ h` and `none` (without panicking) for
every `i ≥ 2 ^ h` — in particular for `i = usize::MAX` — whatever the
store. -/
theorem get_built_indexed (t : PTree) (vs : List Nat) (s : List Seg)
    (hb : builtFrom t vs) :
    vs.length = 2 ^ t.height ∧ ∀ idx, PTree.get s t idx = vs[idx]? := by
  refine ⟨(builtFrom_length hb).1, fun idx => ?_⟩
  exact getLeafF_builtFrom hb (t.height + 1) (by omega) s idx

/-- C3 witness: the two-leaf tree, indices `0`, `1`, `2` and `usize::MAX`. -/
theorem get_built_indexed_witness :
    PTree.get [] demoTree 0 = some 0 ∧ PTree.get [] demoTree 1 = some 1 ∧
    PTree.get [] demoTree 2 = none ∧
    PTree.get [] demoTree (2 ^ 64 - 1) = none := by
  obtain ⟨hlen, hget⟩ := get_built_indexed demoTree [0, 1] [] demoTree_built
  refine ⟨?_, ?_, ?_, ?_⟩ <;> rw [hget] <;> rfl

end Proofmarshal

namespace Proofmarshal

/-- C4: for every tree built purely from leaves via `try_join`, saving it and
loading from the returned root offset yields a tree whose leaf sequence
(every `get` index, resolved through the resulting store) and root digest
are identical to those of the original tree. -/
theorem save_load_roundtrip (t : PTree) (vs : List Nat) (s : List Seg)
    (rootOff : Nat) (sf : List Seg) (hb : builtFrom t vs)
    (hs : trySave t s = some (rootOff, sf)) :
    ∃ t2, loadRoot sf rootOff = some t2 ∧
      nodeDigest t2 = nodeDigest t ∧
      (∀ idx, PTree.get sf t2 idx = vs[idx]?) ∧
      (∀ idx, PTree.get sf t idx = vs[idx]?) := by
  obtain ⟨Δ, d, off, hsn, hnd, hge, hlt, hpb, hget⟩ := saveNode_spec hb s
  have hs2 : trySave t s = some (byteLen (s ++ Δ),
      (s ++ Δ) ++ [.digest d, .offset off, .heightByte t.height]) := by
    unfold trySave
    rw [hsn]
  rw [hs2] at hs
  injection hs with hs
  rw [Prod.mk.injEq] at hs
  obtain ⟨hro, hsp⟩ := hs
  subst hro
  subst hsp
  refine ⟨mkClean t.height d off, ?_, ?_, ?_, ?_⟩
  · unfold loadRoot
    rw [segsAt_append_len]
  · rw [hnd]
    unfold mkClean
    by_cases h0 : t.height = 0 <;> simp [h0, nodeDigest]
  · intro idx
    have hh : (mkClean t.height d off).height = t.height := by
      unfold mkClean
      by_cases h0 : t.height = 0
      · rw [h0]
        rfl
      · rw [if_neg h0]
        rfl
    show getLeafF ((s ++ Δ) ++ [Seg.digest d, Seg.offset off, Seg.heightByte t.height])
        ((mkClean t.height d off).height + 1) (mkClean t.height d off) idx = vs[idx]?
    rw [hh]
    exact hget [Seg.digest d, Seg.offset off, Seg.heightByte t.height] idx
  · intro idx
    exact getLeafF_builtFrom hb (t.height + 1) (by omega) _ idx

/-- C4 witness: the two-leaf tree saved into an empty store and loaded back
from root offset `82`. -/
theorem save_load_roundtrip_witness :
    trySave demoTree [] = some (82, demoStore) ∧
    loadRoot demoStore 82 = some (.tipClean (some demoDigest) 2 1) ∧
    nodeDigest (.tipClean (some demoDigest) 2 1) = nodeDigest demoTree ∧
    PTree.get demoStore (.tipClean (some demoDigest) 2 1) 0 = some 0 ∧
    PTree.get demoStore (.tipClean (some demoDigest) 2 1) 1 = some 1 ∧
    PTree.get demoStore (.tipClean (some demoDigest) 2 1) 2 = none := by
  have hts : trySave demoTree [] = some (82, demoStore) := by rfl
  obtain ⟨t2, hload, hdig, hget, _⟩ :=
    save_load_roundtrip demoTree [0, 1] [] 82 demoStore demoTree_built hts
  have hload2 : loadRoot demoStore 82 = some (.tipClean (some demoDigest) 2 1) := by rfl
  have ht2 : t2 = .tipClean (some demoDigest) 2 1 :=
    Option.some.inj (hload.symm.trans hload2)
  subst ht2
  exact ⟨hts, hload2, hdig, by rw [hget 0]; rfl, by rw [hget 1]; rfl,
    by rw [hget 2]; rfl⟩

/-- C9: a `trySave` run onto any store appends a region in which every
8-byte offset field references a strictly earlier byte position — since the
store is append-only and store order is append (temporal) order, every
parent blob is written only after the child offsets it embeds already exist
(strict post-order). -/
theorem save_postorder (t : PTree) (vs : List Nat) (s : List Seg)
    (rootOff : Nat) (sf : List Seg) (hb : builtFrom t vs)
    (hs : trySave t s = some (rootOff, sf)) :
    ∃ Δ, sf = s ++ Δ ∧ offsetsPointBack Δ (byteLen s) = true := by
  obtain ⟨Δ, d, off, hsn, hnd, hge, hlt, hpb, hget⟩ := saveNode_spec hb s
  have hs2 : trySave t s = some (byteLen (s ++ Δ),
      (s ++ Δ) ++ [.digest d, .offset off, .heightByte t.height]) := by
    unfold trySave
    rw [hsn]
  rw [hs2] at hs
  injection hs with hs
  rw [Prod.mk.injEq] at hs
  obtain ⟨hro, hsp⟩ := hs
  refine ⟨Δ ++ [.digest d, .offset off, .heightByte t.height],
    by rw [← hsp]; simp [List.append_assoc], ?_⟩
  rw [offsetsPointBack_append, hpb]
  have hroot : offsetsPointBack [Seg.digest d, Seg.offset off, Seg.heightByte t.height]
      (byteLen s + byteLen Δ) = true := by
    simp only [offsetsPointBack, Seg.size, Bool.and_true, Bool.and_eq_true,
      decide_eq_true_eq]
    have h2 := hlt
    simp only [byteLen_append] at h2
    omega
  rw [hroot]
  rfl

/-- C9 witness: the concrete two-leaf save — every offset field of the
resulting store points backwards. -/
theorem save_postorder_witness : offsetsPointBack demoStore 0 = true := by
  obtain ⟨Δ, hΔ, hpb⟩ :=
    save_postorder demoTree [0, 1] [] 82 demoStore demoTree_built (by rfl)
  rw [List.nil_append] at hΔ
  rw [hΔ]
  exact hpb

end Proofmarshal

namespace Proofmarshal

/-- C5 counterexample: the two-leaf tree, still dirty after being saved once
(the save protocol never writes offsets back into the in-memory tree), saved
a second time into the resulting store: the first save returns root offset
`82` with a 123-byte store, the second returns root offset `205` with a
246-byte store — 123 further bytes appended and a different offset, against
the claim's "zero additional bytes and the same root offset". -/
theorem resave_appends_again :
    (trySave demoTree []).map Prod.fst = some 82 ∧
    ((trySave demoTree []).map fun p => byteLen p.2) = some 123 ∧
    ((trySave demoTree []).bind fun p => trySave demoTree p.2).map Prod.fst
      = some 205 ∧
    (((trySave demoTree []).bind fun p => trySave demoTree p.2).map
      fun p => byteLen p.2) = some 246 ∧
    (82 : Nat) ≠ 205 ∧ (246 : Nat) - 123 ≠ 0 := by
  exact ⟨by decide, by decide, by decide, by decide, by decide, by decide⟩

/-- C5 (amended): a pointer already in the clean state is emitted as its
existing offset with zero store appends (`State::Clean` short-circuits); but
saving does not transition the in-memory tree to clean, so saving a
still-dirty tree a second time appends its full encoding again and returns a
new root offset (`82` then `205` for the two-leaf tree). -/
theorem clean_save_noop :
    (∀ (d : Digest) (off h : Nat) (s : List Seg),
        saveNode (.tipClean (some d) off h) s = some (s, d, off)) ∧
    (∀ (d : Digest) (off : Nat) (s : List Seg),
        saveNode (.leafClean (some d) off) s = some (s, d, off)) ∧
    (trySave demoTree []).map Prod.fst = some 82 ∧
    ((trySave demoTree []).bind fun p => trySave demoTree p.2).map Prod.fst
      = some 205 := by
  exact ⟨fun d off h s => rfl, fun d off s => rfl, by decide, by decide⟩

/-- C6 counterexample: the spec's byte enumeration — two 1-byte leaf
payloads, two 32-byte leaf digests, one 32-byte pair digest, one 8-byte
child offset and one 1-byte height — totals 107 bytes, but saving the
two-leaf tree into an empty store produces 123 bytes: the pair blob also
carries one 8-byte child offset per leaf node, which the enumeration
omits. -/
theorem concrete_save_bytes_mismatch :
    ((trySave demoTree []).map fun p => byteLen p.2) = some 123 ∧
    2 * 1 + 2 * 32 + 32 + 8 + 1 = 107 ∧ (123 : Nat) ≠ 107 := by
  exact ⟨by decide, by decide, by decide⟩

/-- C6 (amended): joining leaves `0u8` and `1u8` yields a height-1 tree with
`get 0 = some 0`, `get 1 = some 1`, `get 2 = none`; saving it to an empty
store produces exactly `demoStore` — two 1-byte leaf payloads, then the pair
blob (32-byte leaf digest and 8-byte leaf offset, for each of the two
leaves), then the root record (32-byte pair digest, 8-byte pair offset,
1 height byte) — with total byte length `123` and final root offset `82`. -/
theorem concrete_save_scenario :
    tryJoin (newLeaf 0) (newLeaf 1) = .ok demoTree ∧
    demoTree.height = 1 ∧
    PTree.get [] demoTree 0 = some 0 ∧
    PTree.get [] demoTree 1 = some 1 ∧
    PTree.get [] demoTree 2 = none ∧
    trySave demoTree [] = some (82, demoStore) ∧
    byteLen demoStore = 123 := by
  exact ⟨rfl, rfl, rfl, rfl, rfl, by decide, by decide⟩

/-- Trees built by the constructors have no clean frontier at all, so they
are trivially `goodTree`. -/
theorem builtFrom_good {t : PTree} {vs : List Nat} (hb : builtFrom t vs) :
    goodTree t = true := by
  induction hb with
  | leaf v => rfl
  | @join l r tj vl vr hl hr hj ihl ihr =>
      obtain ⟨_, _, ht⟩ := tryJoin_ok_inv hj
      subst ht
      simp [goodTree, ihl, ihr]

/-- On `goodTree` trees the digest computation never reaches the
"digest missing yet tip ptr clean" panic. -/
theorem goodTree_digest_isSome :
    ∀ t : PTree, goodTree t = true → (nodeDigest t).isSome = true := by
  intro t
  induction t with
  | leafDirty v => intro _; rfl
  | leafClean d off =>
      cases d with
      | none => intro h; exact absurd h (by simp [goodTree])
      | some g => intro _; rfl
  | tipDirty d l r h ihl ihr =>
      cases d with
      | none =>
          intro hg
          simp only [goodTree, Bool.and_eq_true] at hg
          have h1 := ihl hg.1
          rw [show nodeDigest (.tipDirty none l r h) =
              (nodeDigest l).map (fun x => .hashPair x x h) from rfl]
          cases hnd : nodeDigest l with
          | none => rw [hnd] at h1; simp at h1
          | some x => rfl
      | some g => intro _; rfl
  | tipClean d off h =>
      cases d with
      | none => intro hg; exact absurd hg (by simp [goodTree])
      | some g => intro _; rfl

/-- C10: every tree reachable through the public constructors and loading
keeps the invariant that a clean node carries a memoized digest
(`goodTree`); on such trees `pair_commit` (and the whole digest
computation) is total — the panic branch of `calc_pair_commit` is
unreachable.  Children materialised from the store during `get` descent
(`mkClean`) always carry their stored digest, so the invariant is preserved
by every operation. -/
theorem pair_commit_total_on_reachable :
    ∀ (t tl : PTree) (vs : List Nat) (s : List Seg) (off : Nat)
      (dg : Option Digest) (l r : PTree) (h : Nat),
      (builtFrom t vs → goodTree t = true) ∧
      (loadRoot s off = some tl → goodTree tl = true) ∧
      (goodTree t = true → (nodeDigest t).isSome = true) ∧
      (goodTree (.tipDirty dg l r h) = true →
        (pairCommit (.tipDirty dg l r h)).isSome = true) ∧
      (goodTree (.tipClean dg off h) = true →
        (pairCommit (.tipClean dg off h)).isSome = true) := by
  intro t tl vs s off dg l r h
  refine ⟨fun hb => builtFrom_good hb, ?_, goodTree_digest_isSome t, ?_, ?_⟩
  · intro hload
    unfold loadRoot at hload
    cases hseg : segsAt s off with
    | none => rw [hseg] at hload; exact Option.noConfusion hload
    | some rest =>
        rw [hseg] at hload
        match rest, hload with
        | .digest d2 :: .offset o2 :: .heightByte h2 :: _, hload =>
            have htl : tl = mkClean h2 d2 o2 := (Option.some.inj hload).symm
            subst htl
            unfold mkClean
            by_cases h0 : h2 = 0
            · rw [if_pos h0]; rfl
            · rw [if_neg h0]; rfl
  · intro hg
    cases dg with
    | none =>
        simp only [goodTree, Bool.and_eq_true] at hg
        have h1 := goodTree_digest_isSome l hg.1
        rw [show pairCommit (.tipDirty none l r h) =
            (nodeDigest l).map (fun x => .hashPair x x h) from rfl]
        cases hnd : nodeDigest l with
        | none => rw [hnd] at h1; simp at h1
        | some x => rfl
    | some g => rfl
  · intro hg
    cases dg with
    | none => exact absurd hg (by simp [goodTree])
    | some g => rfl

/-- C10 witness: the built two-leaf tree, a loaded leaf, and `pair_commit`
at the two-leaf tip. -/
theorem pair_commit_total_on_reachable_witness :
    goodTree demoTree = true ∧
    goodTree (.leafClean (some (.ofValue 0)) 0) = true ∧
    (nodeDigest demoTree).isSome = true ∧
    (pairCommit demoTree).isSome = true := by
  obtain ⟨h1, h2, h3, h4, _⟩ := pair_commit_total_on_reachable demoTree
    (.leafClean (some (.ofValue 0)) 0) [0, 1]
    [Seg.digest (.ofValue 0), Seg.offset 0, Seg.heightByte 0] 0
    none (.leafDirty 0) (.leafDirty 1) 1
  have hgood : goodTree demoTree = true := h1 demoTree_built
  exact ⟨hgood, h2 (by rfl), h3 hgood, h4 hgood⟩

end Proofmarshal
